import Mathlib

/-!
Verification of the growth-and-migration model of
`timelessnesses/dynamic-array-visualizer` (`src/main.rs`).

The Rust `Array` struct and its three mutating operations `grow`, `extend`
and `append_old_data` are embedded as pure Lean functions over an explicit
state record.  The visualization's main loop drives the model once per
frame ("tick"); the model-mutating part of one loop iteration (the calls to
`grow`, the conditional `extend` plus retry, the `limited_reached` flag
update, and the unconditional `append_old_data`) is embedded as `tick` on a
`LoopState`.  The `growth` field is an `f64` in Rust; it is modelled as an
exact rational, and the cast `(capacity as f64 * growth).ceil() as usize`
as `Int.toNat ∘ Int.ceil` on `ℚ` (the `as usize` cast saturates below at 0,
which `Int.toNat` reproduces; upper saturation is irrelevant on `ℕ`).
Rendering, timing, FPS statistics and video encoding are external to the
model and are not embedded; in particular the 3-second wall-clock grace
period after `limited_reached` only decides when the loop stops, not what
any iteration does, so `tick` faithfully covers every iteration.
-/

namespace Dynarray

/-- The `Array` struct of `src/main.rs` (lines 20–30).  Field names and
order follow the Rust source; `growth: f64` is modelled as `ℚ`. -/
structure Array where
  growth : ℚ
  old_data_size : ℕ
  size : ℕ
  capacity : ℕ
  hard_limit : Option ℕ
  old_data_appended : ℕ
  resizes : ℕ
  copy_operations : ℕ

/-- `Array::new` (lines 33–44). -/
def Array.new (growth : ℚ) (hard_limit : Option ℕ) : Array :=
  { growth := growth
    old_data_size := 0
    size := 0
    capacity := 1
    hard_limit := hard_limit
    old_data_appended := 0
    copy_operations := 0
    resizes := 0 }

/-- `Array::grow` (lines 48–55): fails when the capacity cannot hold one
more element, otherwise stores the incremented size and returns it. -/
def Array.grow (a : Array) : Except Unit ℕ × Array :=
  let new_size := a.size + 1
  if new_size > a.capacity then
    (Except.error (), a)
  else
    (Except.ok new_size, { a with size := new_size })

/-- `Array::extend` (lines 57–68): bumps `resizes`, snapshots the current
size as the old generation, multiplies the capacity by the growth factor
(rounded up), clamps it to `hard_limit` when that is exceeded, and resets
the migration cursor. -/
def Array.extend (a : Array) : Array :=
  let a1 := { a with resizes := a.resizes + 1 }
  let a2 := { a1 with old_data_size := a1.size }
  let a3 := { a2 with capacity := (⌈(a2.capacity : ℚ) * a2.growth⌉).toNat }
  let a4 :=
    match a3.hard_limit with
    | some limit => if a3.capacity > limit then { a3 with capacity := limit } else a3
    | none => a3
  { a4 with old_data_appended := 0 }

/-- `Array::append_old_data` (lines 70–78): migrates one unit of old data
per call while any is pending, otherwise fails without mutation. -/
def Array.append_old_data (a : Array) : Except Unit ℕ × Array :=
  if a.old_data_appended < a.old_data_size then
    let a1 := { a with copy_operations := a.copy_operations + 1,
                       old_data_appended := a.old_data_appended + 1 }
    (Except.ok a1.old_data_appended, a1)
  else
    (Except.error (), a)

/-- The per-frame `memory_efficiency` computation of the main loop
(line 137), carried out on exact rationals. -/
def memory_efficiency (a : Array) : ℚ :=
  ((a.size : ℚ) - (a.old_data_size : ℚ) + (a.old_data_appended : ℚ)) / (a.capacity : ℚ)

/-- The model-visible state of the main loop: the array plus the
`limited_reached` flag (the `last_limit_reached` timestamp only controls
when the loop exits and is external to the model). -/
structure LoopState where
  arr : Array
  limited_reached : Bool

/-- Step 1 of the loop body (lines 165–184): attempt `grow`; on failure,
if migration of the old generation is complete, `extend` and retry `grow`
once, setting `limited_reached` when the retry also fails. -/
def growPhase (s : LoopState) : LoopState :=
  match s.arr.grow with
  | (Except.error _, arr) =>
    if arr.old_data_appended = arr.old_data_size then
      match arr.extend.grow with
      | (Except.error _, arr2) => { arr := arr2, limited_reached := true }
      | (Except.ok _, arr2) => { s with arr := arr2 }
    else
      { s with arr := arr }
  | (Except.ok _, arr) => { s with arr := arr }

/-- One full model tick of the main loop: the grow phase (lines 165–184)
followed by the unconditional `append_old_data` call (lines 186–195). -/
def tick (s : LoopState) : LoopState :=
  let s1 := growPhase s
  { s1 with arr := s1.arr.append_old_data.2 }

/-- The loop state after `n` ticks, starting from a freshly constructed
array (line 88) with `limited_reached = false` (line 122). -/
def run (growth : ℚ) (hard_limit : Option ℕ) : ℕ → LoopState
  | 0 => { arr := Array.new growth hard_limit, limited_reached := false }
  | n + 1 => tick (run growth hard_limit n)

/-- The capacity computed by `Array::extend` (lines 60–66), as a function
of the previous capacity, the growth factor and the hard limit. -/
def capClamp : Option ℕ → ℕ → ℕ
  | some limit, c => if c > limit then limit else c
  | none, c => c

/-- Invariants 1–3 of spec §3 together with the configuration facts
(`capacity ≥ 1`, `growthFactor ≥ 1`, `hardLimit ≥ 1`) that keep them
inductive. -/
def Inv (a : Array) : Prop :=
  a.size ≤ a.capacity ∧
  a.old_data_appended ≤ a.old_data_size ∧
  a.old_data_size ≤ a.size ∧
  1 ≤ a.capacity ∧
  1 ≤ a.growth ∧
  (∀ limit, a.hard_limit = some limit → a.capacity ≤ limit ∧ 1 ≤ limit)

/-- One invocation of a mutating `Array` operation, recording only the
state change (the returned `Result` is discarded). -/
inductive Step : Array → Array → Prop
  | growS (a : Array) : Step a a.grow.2
  | extendS (a : Array) : Step a a.extend
  | appendS (a : Array) : Step a a.append_old_data.2

/-- All states obtainable from `a` by some sequence of `grow`, `extend`
and `append_old_data` calls; every sequence the tick policy produces is
such a sequence. -/
def Reaches (a b : Array) : Prop := Relation.ReflTransGen Step a b

/-- The inductive invariant of the driving loop: the array invariant, and —
once `limited_reached` is set — the array is full and `extend` can no
longer change the capacity. -/
def LoopInv (s : LoopState) : Prop :=
  Inv s.arr ∧
  (s.limited_reached = true →
    s.arr.capacity ≤ s.arr.size ∧ s.arr.extend.capacity = s.arr.capacity)

/-! ### Equation lemmas for the operations -/

theorem grow_of_fail {a : Array} (h : a.capacity < a.size + 1) :
    a.grow = (Except.error (), a) := by
  simp only [Array.grow]
  rw [if_pos h]

theorem grow_of_ok {a : Array} (h : a.size + 1 ≤ a.capacity) :
    a.grow = (Except.ok (a.size + 1), { a with size := a.size + 1 }) := by
  simp only [Array.grow]
  rw [if_neg (by omega)]

theorem append_of_ok {a : Array} (h : a.old_data_appended < a.old_data_size) :
    a.append_old_data =
      (Except.ok (a.old_data_appended + 1),
       { a with copy_operations := a.copy_operations + 1,
                old_data_appended := a.old_data_appended + 1 }) := by
  simp only [Array.append_old_data]
  rw [if_pos h]

theorem append_of_fail {a : Array} (h : ¬ a.old_data_appended < a.old_data_size) :
    a.append_old_data = (Except.error (), a) := by
  simp only [Array.append_old_data]
  rw [if_neg h]

theorem extend_capacity (a : Array) :
    a.extend.capacity = capClamp a.hard_limit (⌈(a.capacity : ℚ) * a.growth⌉).toNat := by
  cases h : a.hard_limit <;> simp [Array.extend, capClamp, h] <;> split <;> simp

theorem extend_growth (a : Array) : a.extend.growth = a.growth := by
  cases h : a.hard_limit <;> simp [Array.extend, h] <;> split <;> simp

theorem extend_hard_limit (a : Array) : a.extend.hard_limit = a.hard_limit := by
  cases h : a.hard_limit <;> simp [Array.extend, h] <;> split <;> simp [h]

theorem extend_size (a : Array) : a.extend.size = a.size := by
  cases h : a.hard_limit <;> simp [Array.extend, h] <;> split <;> simp

theorem extend_old_data_size (a : Array) : a.extend.old_data_size = a.size := by
  cases h : a.hard_limit <;> simp [Array.extend, h] <;> split <;> simp

theorem extend_old_data_appended (a : Array) : a.extend.old_data_appended = 0 := by
  cases h : a.hard_limit <;> simp [Array.extend, h] <;> split <;> simp

theorem extend_resizes (a : Array) : a.extend.resizes = a.resizes + 1 := by
  cases h : a.hard_limit <;> simp [Array.extend, h] <;> split <;> simp

theorem extend_copy_operations (a : Array) : a.extend.copy_operations = a.copy_operations := by
  cases h : a.hard_limit <;> simp [Array.extend, h] <;> split <;> simp

/-! ### Monotonicity of the recomputed capacity -/

theorem le_toNat_ceil_mul {g : ℚ} (c : ℕ) (hg : 1 ≤ g) :
    c ≤ (⌈(c : ℚ) * g⌉).toNat := by
  have h1 : (c : ℚ) ≤ (c : ℚ) * g :=
    le_mul_of_one_le_right (by positivity) hg
  have h2 : (c : ℤ) ≤ ⌈(c : ℚ) * g⌉ := by
    have := Int.ceil_mono h1
    rwa [Int.ceil_natCast] at this
  omega

theorem lt_toNat_ceil_mul {g : ℚ} {c : ℕ} (hc : 1 ≤ c) (hg : 1 < g) :
    c < (⌈(c : ℚ) * g⌉).toNat := by
  have h1 : (c : ℚ) < (c : ℚ) * g := by
    have hc0 : (0 : ℚ) < (c : ℚ) := by exact_mod_cast hc
    nlinarith
  have h2 : (c : ℤ) < ⌈(c : ℚ) * g⌉ := by
    rw [Int.lt_ceil]
    exact_mod_cast h1
  omega

theorem capClamp_le_limit (limit c : ℕ) : capClamp (some limit) c ≤ limit := by
  simp only [capClamp]
  split <;> omega

theorem le_capClamp_of_le {limit c d : ℕ} (hdc : d ≤ c) (hdL : d ≤ limit) :
    d ≤ capClamp (some limit) c := by
  simp only [capClamp]
  split <;> omega

/-- The capacity never shrinks across `extend`, provided the growth factor
is at least `1` and the capacity has not outgrown the hard limit. -/
theorem capacity_le_extend {a : Array} (hg : 1 ≤ a.growth)
    (hL : ∀ limit, a.hard_limit = some limit → a.capacity ≤ limit) :
    a.capacity ≤ a.extend.capacity := by
  rw [extend_capacity]
  cases h : a.hard_limit with
  | none => exact le_toNat_ceil_mul a.capacity hg
  | some limit =>
      exact le_capClamp_of_le (le_toNat_ceil_mul a.capacity hg) (hL limit h)

/-! ### The data-model invariant (spec §3) -/

theorem inv_new {g : ℚ} {hl : Option ℕ} (hg : 1 ≤ g)
    (hhl : ∀ limit, hl = some limit → 1 ≤ limit) : Inv (Array.new g hl) := by
  refine ⟨by simp [Array.new], by simp [Array.new], by simp [Array.new],
    by simp [Array.new], by simpa [Array.new] using hg, ?_⟩
  intro limit h
  simp only [Array.new] at h
  exact ⟨hhl limit h, hhl limit h⟩

theorem inv_grow {a : Array} (h : Inv a) : Inv a.grow.2 := by
  obtain ⟨h1, h2, h3, h4, h5, h6⟩ := h
  by_cases hc : a.size + 1 ≤ a.capacity
  · rw [grow_of_ok hc]
    exact ⟨by simpa using hc, by simpa using h2, by simp; omega, by simpa using h4,
      by simpa using h5, by simpa using h6⟩
  · rw [grow_of_fail (by omega)]
    exact ⟨h1, h2, h3, h4, h5, h6⟩

theorem inv_extend {a : Array} (h : Inv a) : Inv a.extend := by
  obtain ⟨h1, h2, h3, h4, h5, h6⟩ := h
  have hcap : a.capacity ≤ a.extend.capacity :=
    capacity_le_extend h5 (fun limit hl => (h6 limit hl).1)
  have hlim : ∀ limit, a.extend.hard_limit = some limit →
      a.extend.capacity ≤ limit ∧ 1 ≤ limit := by
    intro limit hl
    rw [extend_hard_limit] at hl
    rw [extend_capacity, hl]
    exact ⟨capClamp_le_limit _ _, (h6 limit hl).2⟩
  refine ⟨?_, ?_, ?_, ?_, ?_, hlim⟩
  · rw [extend_size]; omega
  · rw [extend_old_data_appended]; omega
  · rw [extend_old_data_size, extend_size]
  · omega
  · rw [extend_growth]; exact h5

theorem inv_append {a : Array} (h : Inv a) : Inv a.append_old_data.2 := by
  obtain ⟨h1, h2, h3, h4, h5, h6⟩ := h
  by_cases hc : a.old_data_appended < a.old_data_size
  · rw [append_of_ok hc]
    exact ⟨by simpa using h1, by simp; omega, by simpa using h3, by simpa using h4,
      by simpa using h5, by simpa using h6⟩
  · rw [append_of_fail hc]
    exact ⟨h1, h2, h3, h4, h5, h6⟩

/-! ### Reachability by the model's operations -/

theorem inv_step {a b : Array} (h : Inv a) (hs : Step a b) : Inv b := by
  cases hs with
  | growS => exact inv_grow h
  | extendS => exact inv_extend h
  | appendS => exact inv_append h

theorem inv_reaches {a b : Array} (h : Inv a) (hr : Reaches a b) : Inv b := by
  induction hr with
  | refl => exact h
  | tail _ hs ih => exact inv_step ih hs

/-! ### Fields untouched by the operations -/

theorem grow_snd_growth (a : Array) : a.grow.2.growth = a.growth := by
  simp only [Array.grow]; split <;> rfl

theorem grow_snd_hard_limit (a : Array) : a.grow.2.hard_limit = a.hard_limit := by
  simp only [Array.grow]; split <;> rfl

theorem grow_snd_capacity (a : Array) : a.grow.2.capacity = a.capacity := by
  simp only [Array.grow]; split <;> rfl

theorem append_snd_growth (a : Array) : a.append_old_data.2.growth = a.growth := by
  simp only [Array.append_old_data]; split <;> rfl

theorem append_snd_hard_limit (a : Array) : a.append_old_data.2.hard_limit = a.hard_limit := by
  simp only [Array.append_old_data]; split <;> rfl

theorem append_snd_capacity (a : Array) : a.append_old_data.2.capacity = a.capacity := by
  simp only [Array.append_old_data]; split <;> rfl

theorem append_snd_size (a : Array) : a.append_old_data.2.size = a.size := by
  simp only [Array.append_old_data]; split <;> rfl

theorem step_growth {a b : Array} (hs : Step a b) : b.growth = a.growth := by
  cases hs with
  | growS => exact grow_snd_growth a
  | extendS => exact extend_growth a
  | appendS => exact append_snd_growth a

theorem step_hard_limit {a b : Array} (hs : Step a b) : b.hard_limit = a.hard_limit := by
  cases hs with
  | growS => exact grow_snd_hard_limit a
  | extendS => exact extend_hard_limit a
  | appendS => exact append_snd_hard_limit a

theorem reaches_growth {a b : Array} (hr : Reaches a b) : b.growth = a.growth := by
  induction hr with
  | refl => rfl
  | tail _ hs ih => rw [step_growth hs, ih]

theorem reaches_hard_limit {a b : Array} (hr : Reaches a b) : b.hard_limit = a.hard_limit := by
  induction hr with
  | refl => rfl
  | tail _ hs ih => rw [step_hard_limit hs, ih]

/-! ### Branch equations for the tick -/

theorem growPhase_ok {s : LoopState} (h : s.arr.size + 1 ≤ s.arr.capacity) :
    growPhase s = { s with arr := { s.arr with size := s.arr.size + 1 } } := by
  unfold growPhase
  rw [grow_of_ok h]

theorem growPhase_retry_ok {s : LoopState} (h1 : s.arr.capacity < s.arr.size + 1)
    (h2 : s.arr.old_data_appended = s.arr.old_data_size)
    (h3 : s.arr.extend.size + 1 ≤ s.arr.extend.capacity) :
    growPhase s = { s with arr := { s.arr.extend with size := s.arr.extend.size + 1 } } := by
  unfold growPhase
  rw [grow_of_fail h1]
  simp only [if_pos h2, grow_of_ok h3]

theorem growPhase_retry_fail {s : LoopState} (h1 : s.arr.capacity < s.arr.size + 1)
    (h2 : s.arr.old_data_appended = s.arr.old_data_size)
    (h3 : s.arr.extend.capacity < s.arr.extend.size + 1) :
    growPhase s = { arr := s.arr.extend, limited_reached := true } := by
  unfold growPhase
  rw [grow_of_fail h1]
  simp only [if_pos h2, grow_of_fail h3]

theorem growPhase_defer {s : LoopState} (h1 : s.arr.capacity < s.arr.size + 1)
    (h2 : ¬ s.arr.old_data_appended = s.arr.old_data_size) :
    growPhase s = s := by
  unfold growPhase
  rw [grow_of_fail h1]
  simp only [if_neg h2]

theorem tick_eq (s : LoopState) :
    tick s = { growPhase s with arr := (growPhase s).arr.append_old_data.2 } := rfl

/-- Every state the tick driver produces is reachable from its input by
`grow` / `extend` / `append_old_data` calls. -/
theorem tick_reaches (s : LoopState) : Reaches s.arr (tick s).arr := by
  rw [tick_eq]
  suffices h : Reaches s.arr (growPhase s).arr by
    exact h.tail (Step.appendS _)
  by_cases hg1 : s.arr.size + 1 ≤ s.arr.capacity
  · rw [growPhase_ok hg1]
    have h := Relation.ReflTransGen.single (Step.growS s.arr)
    rwa [grow_of_ok hg1] at h
  · by_cases hmig : s.arr.old_data_appended = s.arr.old_data_size
    · by_cases hretry : s.arr.extend.size + 1 ≤ s.arr.extend.capacity
      · rw [growPhase_retry_ok (by omega) hmig hretry]
        have h := (Relation.ReflTransGen.single (Step.extendS s.arr)).tail
          (Step.growS s.arr.extend)
        rwa [grow_of_ok hretry] at h
      · rw [growPhase_retry_fail (by omega) hmig (by omega)]
        exact Relation.ReflTransGen.single (Step.extendS s.arr)
    · rw [growPhase_defer (by omega) hmig]
      exact Relation.ReflTransGen.refl

/-! ### The loop invariant: what `limited_reached` implies -/

theorem extend_capacity_congr {a b : Array} (hc : a.capacity = b.capacity)
    (hg : a.growth = b.growth) (hl : a.hard_limit = b.hard_limit) :
    a.extend.capacity = b.extend.capacity := by
  rw [extend_capacity, extend_capacity, hc, hg, hl]

theorem loopInv_growPhase {s : LoopState} (h : LoopInv s) : LoopInv (growPhase s) := by
  obtain ⟨hI, hlim⟩ := h
  by_cases hg1 : s.arr.size + 1 ≤ s.arr.capacity
  · rw [growPhase_ok hg1]
    refine ⟨?_, ?_⟩
    · have h := inv_grow hI
      rwa [grow_of_ok hg1] at h
    · intro hl
      obtain ⟨hc, -⟩ := hlim hl
      omega
  · by_cases hmig : s.arr.old_data_appended = s.arr.old_data_size
    · by_cases hretry : s.arr.extend.size + 1 ≤ s.arr.extend.capacity
      · rw [growPhase_retry_ok (by omega) hmig hretry]
        refine ⟨?_, ?_⟩
        · have h := inv_grow (inv_extend hI)
          rwa [grow_of_ok hretry] at h
        · intro hl
          obtain ⟨hc, hstable⟩ := hlim hl
          rw [extend_size, hstable] at hretry
          omega
      · rw [growPhase_retry_fail (by omega) hmig (by omega)]
        refine ⟨inv_extend hI, fun _ => ?_⟩
        show s.arr.extend.capacity ≤ s.arr.extend.size ∧
          s.arr.extend.extend.capacity = s.arr.extend.capacity
        have hsz : s.arr.extend.size = s.arr.size := extend_size s.arr
        have hmono : s.arr.capacity ≤ s.arr.extend.capacity :=
          capacity_le_extend hI.2.2.2.2.1 (fun limit hL => (hI.2.2.2.2.2 limit hL).1)
        have hszcap : s.arr.size ≤ s.arr.capacity := hI.1
        have hcapeq : s.arr.extend.capacity = s.arr.capacity := by omega
        refine ⟨by omega, ?_⟩
        rw [extend_capacity_congr hcapeq (extend_growth s.arr) (extend_hard_limit s.arr),
          hcapeq]
    · rw [growPhase_defer (by omega) hmig]
      exact ⟨hI, hlim⟩

theorem loopInv_tick {s : LoopState} (h : LoopInv s) : LoopInv (tick s) := by
  rw [tick_eq]
  obtain ⟨hI, hlim⟩ := loopInv_growPhase h
  refine ⟨inv_append hI, fun hl => ?_⟩
  obtain ⟨hc, hstable⟩ := hlim hl
  refine ⟨?_, ?_⟩
  · rw [append_snd_capacity, append_snd_size]
    exact hc
  · rw [extend_capacity_congr (append_snd_capacity (growPhase s).arr)
      (append_snd_growth (growPhase s).arr) (append_snd_hard_limit (growPhase s).arr),
      append_snd_capacity]
    exact hstable

theorem loopInv_run {g : ℚ} {hl : Option ℕ} (hg : 1 ≤ g)
    (hhl : ∀ limit, hl = some limit → 1 ≤ limit) (n : ℕ) : LoopInv (run g hl n) := by
  induction n with
  | zero => exact ⟨inv_new hg hhl, fun h => by simp [run] at h⟩
  | succ n ih => exact loopInv_tick ih

theorem run_succ (g : ℚ) (hl : Option ℕ) (n : ℕ) :
    run g hl (n + 1) = tick (run g hl n) := rfl

theorem run_reaches (g : ℚ) (hl : Option ℕ) (n : ℕ) :
    Reaches (Array.new g hl) (run g hl n).arr := by
  induction n with
  | zero => exact Relation.ReflTransGen.refl
  | succ n ih => exact ih.trans (tick_reaches (run g hl n))

/-! ### Behaviour of a tick once `limited_reached` is set -/

/-- After `limited_reached` is set, every tick keeps it set and leaves
`capacity` and `size` untouched (though other fields may still change). -/
theorem tick_of_limited {s : LoopState} (h : LoopInv s) (hl : s.limited_reached = true) :
    (tick s).limited_reached = true ∧ (tick s).arr.capacity = s.arr.capacity ∧
    (tick s).arr.size = s.arr.size := by
  obtain ⟨hI, hlim⟩ := h
  obtain ⟨hc, hstable⟩ := hlim hl
  have hg1 : s.arr.capacity < s.arr.size + 1 := by omega
  by_cases hmig : s.arr.old_data_appended = s.arr.old_data_size
  · have hretry : s.arr.extend.capacity < s.arr.extend.size + 1 := by
      rw [hstable, extend_size]
      omega
    rw [tick_eq, growPhase_retry_fail hg1 hmig hretry]
    refine ⟨rfl, ?_, ?_⟩
    · show (s.arr.extend.append_old_data.2).capacity = s.arr.capacity
      rw [append_snd_capacity, hstable]
    · show (s.arr.extend.append_old_data.2).size = s.arr.size
      rw [append_snd_size, extend_size]
  · rw [tick_eq, growPhase_defer hg1 hmig]
    exact ⟨hl, append_snd_capacity s.arr, append_snd_size s.arr⟩

/-- Once `limited_reached` holds after `n` ticks it still holds after any
`m ≥ n` ticks, with `capacity` and `size` frozen at their tick-`n` values. -/
theorem run_frozen {g : ℚ} {hl : Option ℕ} (hg : 1 ≤ g)
    (hhl : ∀ limit, hl = some limit → 1 ≤ limit) {n m : ℕ} (hnm : n ≤ m)
    (hlim : (run g hl n).limited_reached = true) :
    (run g hl m).limited_reached = true ∧
    (run g hl m).arr.capacity = (run g hl n).arr.capacity ∧
    (run g hl m).arr.size = (run g hl n).arr.size := by
  induction m with
  | zero =>
      have hn : n = 0 := by omega
      subst hn
      exact ⟨hlim, rfl, rfl⟩
  | succ m ih =>
      by_cases hn : n = m + 1
      · subst hn
        exact ⟨hlim, rfl, rfl⟩
      · have hnm2 : n ≤ m := by omega
        obtain ⟨h1, h2, h3⟩ := ih hnm2
        obtain ⟨g1, g2, g3⟩ := tick_of_limited (loopInv_run hg hhl m) h1
        rw [run_succ]
        exact ⟨g1, by rw [g2, h2], by rw [g3, h3]⟩

/-! ### Capacity never decreases -/

theorem step_capacity_le {a b : Array} (h : Inv a) (hs : Step a b) :
    a.capacity ≤ b.capacity := by
  cases hs with
  | growS => rw [grow_snd_capacity]
  | extendS =>
      exact capacity_le_extend h.2.2.2.2.1 (fun limit hL => (h.2.2.2.2.2 limit hL).1)
  | appendS => rw [append_snd_capacity]

theorem reaches_capacity_le {a b : Array} (h : Inv a) (hr : Reaches a b) :
    a.capacity ≤ b.capacity := by
  induction hr with
  | refl => exact le_refl _
  | tail hr' hs ih => exact le_trans ih (step_capacity_le (inv_reaches h hr') hs)

theorem run_capacity_mono {g : ℚ} {hl : Option ℕ} (hg : 1 ≤ g)
    (hhl : ∀ limit, hl = some limit → 1 ≤ limit) {n m : ℕ} (hnm : n ≤ m) :
    (run g hl n).arr.capacity ≤ (run g hl m).arr.capacity := by
  induction m with
  | zero =>
      have hn : n = 0 := by omega
      subst hn
      exact le_refl _
  | succ m ih =>
      by_cases hn : n = m + 1
      · subst hn
        exact le_refl _
      · have hnm2 : n ≤ m := by omega
        refine le_trans (ih hnm2) ?_
        rw [run_succ]
        exact reaches_capacity_le (loopInv_run hg hhl m).1 (tick_reaches (run g hl m))

/-! ### Evaluation of concrete runs (growth factor 2) -/

theorem toNat_ceil_one_mul_two : (⌈(1 : ℚ) * 2⌉).toNat = 2 := by
  rw [one_mul, show ((2 : ℚ)) = ((2 : ℕ) : ℚ) by norm_num, Int.ceil_natCast]
  rfl

/-- Tick 1 with growth factor 2 and no hard limit: the very first
`grow` call already succeeds (`size 0 + 1 ≤ capacity 1`). -/
theorem eval_none_1 : run 2 none 1 =
    { arr := ⟨2, 0, 1, 1, none, 0, 0, 0⟩, limited_reached := false } := by
  rw [show run 2 none 1 = tick (run 2 none 0) from rfl, show run 2 none 0 =
    { arr := Array.new 2 none, limited_reached := false } from rfl]
  simp [tick, growPhase, Array.grow, Array.extend, Array.append_old_data, Array.new,
    toNat_ceil_one_mul_two]

/-- Tick 2 with growth factor 2 and no hard limit: `grow` fails, `extend`
doubles the capacity, the retried `grow` succeeds, and one unit of old
data is migrated. -/
theorem eval_none_2 : run 2 none 2 =
    { arr := ⟨2, 1, 2, 2, none, 1, 1, 1⟩, limited_reached := false } := by
  rw [show run 2 none 2 = tick (run 2 none 1) from rfl, eval_none_1]
  simp [tick, growPhase, Array.grow, Array.extend, Array.append_old_data,
    toNat_ceil_one_mul_two]

/-- Tick 1 with growth factor 2 and hard limit 1. -/
theorem eval_lim1_1 : run 2 (some 1) 1 =
    { arr := ⟨2, 0, 1, 1, some 1, 0, 0, 0⟩, limited_reached := false } := by
  rw [show run 2 (some 1) 1 = tick (run 2 (some 1) 0) from rfl, show run 2 (some 1) 0 =
    { arr := Array.new 2 (some 1), limited_reached := false } from rfl]
  simp [tick, growPhase, Array.grow, Array.extend, Array.append_old_data, Array.new,
    toNat_ceil_one_mul_two]

/-- Tick 2 with growth factor 2 and hard limit 1: the post-`extend` retry
of `grow` fails, so `limited_reached` is entered, and the same tick still
migrates one unit of old data. -/
theorem eval_lim1_2 : run 2 (some 1) 2 =
    { arr := ⟨2, 1, 1, 1, some 1, 1, 1, 1⟩, limited_reached := true } := by
  rw [show run 2 (some 1) 2 = tick (run 2 (some 1) 1) from rfl, eval_lim1_1]
  simp [tick, growPhase, Array.grow, Array.extend, Array.append_old_data,
    toNat_ceil_one_mul_two]

/-- Tick 3 with growth factor 2 and hard limit 1: the tick after
`limited_reached` still calls `extend` (migration completed during tick 2),
so `resizes` climbs from 1 to 2 and `old_data_appended` is reset and
re-advanced. -/
theorem eval_lim1_3 : run 2 (some 1) 3 =
    { arr := ⟨2, 1, 1, 1, some 1, 1, 2, 2⟩, limited_reached := true } := by
  rw [show run 2 (some 1) 3 = tick (run 2 (some 1) 2) from rfl, eval_lim1_2]
  simp [tick, growPhase, Array.grow, Array.extend, Array.append_old_data,
    toNat_ceil_one_mul_two]

/-- Tick 1 with growth factor 2 and hard limit 0 (an invalid
configuration the model does not guard against). -/
theorem eval_lim0_1 : run 2 (some 0) 1 =
    { arr := ⟨2, 0, 1, 1, some 0, 0, 0, 0⟩, limited_reached := false } := by
  rw [show run 2 (some 0) 1 = tick (run 2 (some 0) 0) from rfl, show run 2 (some 0) 0 =
    { arr := Array.new 2 (some 0), limited_reached := false } from rfl]
  simp [tick, growPhase, Array.grow, Array.extend, Array.append_old_data, Array.new,
    toNat_ceil_one_mul_two]

/-- Tick 2 with growth factor 2 and hard limit 0: `extend` clamps the
capacity from 1 down to 0 — the capacity decreases. -/
theorem eval_lim0_2 : run 2 (some 0) 2 =
    { arr := ⟨2, 1, 1, 0, some 0, 1, 1, 1⟩, limited_reached := true } := by
  rw [show run 2 (some 0) 2 = tick (run 2 (some 0) 1) from rfl, eval_lim0_1]
  simp [tick, growPhase, Array.grow, Array.extend, Array.append_old_data,
    toNat_ceil_one_mul_two]

/-! ### Remaining auxiliary lemmas -/

theorem lt_toNat_ceil_iff (limit : ℕ) (x : ℚ) :
    limit < (⌈x⌉).toNat ↔ (limit : ℚ) < x := by
  rw [Int.lt_toNat, Int.lt_ceil]
  norm_cast

theorem array_ext {a b : Array} (h1 : a.growth = b.growth)
    (h2 : a.old_data_size = b.old_data_size) (h3 : a.size = b.size)
    (h4 : a.capacity = b.capacity) (h5 : a.hard_limit = b.hard_limit)
    (h6 : a.old_data_appended = b.old_data_appended) (h7 : a.resizes = b.resizes)
    (h8 : a.copy_operations = b.copy_operations) : a = b := by
  cases a
  cases b
  simp_all

theorem run_arr_growth (g : ℚ) (hl : Option ℕ) (n : ℕ) : (run g hl n).arr.growth = g := by
  rw [reaches_growth (run_reaches g hl n)]
  rfl

theorem run_arr_hard_limit (g : ℚ) (hl : Option ℕ) (n : ℕ) :
    (run g hl n).arr.hard_limit = hl := by
  rw [reaches_hard_limit (run_reaches g hl n)]
  rfl

/-! ### The claims -/

/-- C1 (counterexample): with growth factor 2 and hard limit 1 the model
enters `limited_reached` on tick 2 with `resizes = 1`, yet tick 3 still
mutates the model and bumps `resizes` to 2 — so the ticks after
limit-reached are not no-ops and `resizes` does not stop increasing. -/
theorem limit_reached_still_mutates :
    (run 2 (some 1) 2).limited_reached = true ∧
    (run 2 (some 1) 2).arr.resizes = 1 ∧
    (run 2 (some 1) 3).arr.resizes = 2 ∧
    (run 2 (some 1) 3).arr ≠ (run 2 (some 1) 2).arr := by
  rw [eval_lim1_2, eval_lim1_3]
  refine ⟨rfl, rfl, rfl, ?_⟩
  simp

/-- C1 (amended): once `limited_reached` is entered it stays entered and
neither `capacity` nor `size` changes on any subsequent tick; the ticks
themselves are however not no-ops — `append_old_data` keeps running and
`extend` is re-invoked whenever migration is complete, so `resizes`,
`old_data_size`, `old_data_appended` and `copy_operations` may keep
changing (see the counterexample). -/
theorem limit_reached_freezes_capacity_and_size (g : ℚ) (hl : Option ℕ)
    (hg : 1 ≤ g) (hhl : ∀ limit, hl = some limit → 1 ≤ limit) (n m : ℕ)
    (hnm : n ≤ m) (hlim : (run g hl n).limited_reached = true) :
    (run g hl m).limited_reached = true ∧
    (run g hl m).arr.capacity = (run g hl n).arr.capacity ∧
    (run g hl m).arr.size = (run g hl n).arr.size :=
  run_frozen hg hhl hnm hlim

/-- Witness for C1 (amended) at growth 2, hard limit 1, ticks 2 and 3. -/
theorem limit_reached_freezes_capacity_and_size_witness :
    (run 2 (some 1) 3).limited_reached = true ∧
    (run 2 (some 1) 3).arr.capacity = (run 2 (some 1) 2).arr.capacity ∧
    (run 2 (some 1) 3).arr.size = (run 2 (some 1) 2).arr.size :=
  limit_reached_freezes_capacity_and_size 2 (some 1) one_le_two
    (fun limit h => (Option.some.inj h) ▸ le_refl 1) 2 3 (by omega)
    (by rw [eval_lim1_2])

/-- C2 (counterexample): in Scenario A (growth 2, no hard limit) the very
first tick's `grow` call succeeds — `size 0 + 1 ≤ capacity 1` — so no
`extend` happens on tick 1: after it `size = 1`, `capacity = 1` and
`resizes = 0`, contradicting the claimed tick-1 failure and expansion to
capacity 2. -/
theorem first_tick_grow_succeeds :
    (Array.new 2 none).grow.1 = Except.ok 1 ∧
    (run 2 none 1).arr.size = 1 ∧
    (run 2 none 1).arr.capacity = 1 ∧
    (run 2 none 1).arr.resizes = 0 := by
  refine ⟨?_, ?_, ?_, ?_⟩
  · rw [grow_of_ok (by simp [Array.new])]
    simp [Array.new]
  · rw [eval_none_1]
  · rw [eval_none_1]
  · rw [eval_none_1]

/-- C2 (amended): in Scenario A (growth 2, no hard limit) tick 1 admits an
element directly (`grow` succeeds; `size = 1`, `capacity = 1`, no
`extend`); on tick 2 `grow` fails, `extend` raises the capacity to 2, the
retried `grow` succeeds leaving `size = 2`, and one unit of old data is
migrated. -/
theorem scenario_A_first_two_ticks :
    run 2 none 1 = { arr := ⟨2, 0, 1, 1, none, 0, 0, 0⟩, limited_reached := false } ∧
    run 2 none 2 = { arr := ⟨2, 1, 2, 2, none, 1, 1, 1⟩, limited_reached := false } :=
  ⟨eval_none_1, eval_none_2⟩

/-- C3: every state reachable from the freshly constructed model by
sequences of `grow` / `extend` / `append_old_data` calls — in particular
every state the tick-policy run produces — satisfies `size ≤ capacity`,
`migrated ≤ oldGenerationSize ≤ size` and, when a hard limit is set,
`capacity ≤ hardLimit` (assuming growth factor `> 1` and hard limit
`≥ 1`). -/
theorem reachable_states_satisfy_invariants (g : ℚ) (hl : Option ℕ)
    (hg : 1 < g) (hhl : ∀ limit, hl = some limit → 1 ≤ limit) (a : Array)
    (ha : Reaches (Array.new g hl) a ∨ ∃ n, a = (run g hl n).arr) :
    a.size ≤ a.capacity ∧ a.old_data_appended ≤ a.old_data_size ∧
    a.old_data_size ≤ a.size ∧
    ∀ limit, a.hard_limit = some limit → a.capacity ≤ limit := by
  have hbase : Inv (Array.new g hl) := inv_new (le_of_lt hg) hhl
  have hInv : Inv a := by
    rcases ha with h | ⟨n, rfl⟩
    · exact inv_reaches hbase h
    · exact inv_reaches hbase (run_reaches g hl n)
  exact ⟨hInv.1, hInv.2.1, hInv.2.2.1, fun limit h => (hInv.2.2.2.2.2 limit h).1⟩

/-- Witness for C3 at growth 2, no hard limit, after two ticks. -/
theorem reachable_states_satisfy_invariants_witness :
    (run 2 none 2).arr.size ≤ (run 2 none 2).arr.capacity ∧
    (run 2 none 2).arr.old_data_appended ≤ (run 2 none 2).arr.old_data_size ∧
    (run 2 none 2).arr.old_data_size ≤ (run 2 none 2).arr.size ∧
    ∀ limit, (run 2 none 2).arr.hard_limit = some limit →
      (run 2 none 2).arr.capacity ≤ limit :=
  reachable_states_satisfy_invariants 2 none one_lt_two
    (fun limit h => Option.noConfusion h) _ (Or.inr ⟨2, rfl⟩)

/-- C4: `grow` succeeds exactly when `size + 1 ≤ capacity`, in which case
it stores the incremented size and returns it; otherwise it fails and
leaves every field unchanged. -/
theorem grow_spec (a : Array) :
    a.grow = if a.size + 1 ≤ a.capacity
      then (Except.ok (a.size + 1), { a with size := a.size + 1 })
      else (Except.error (), a) := by
  by_cases h : a.size + 1 ≤ a.capacity
  · rw [grow_of_ok h, if_pos h]
  · rw [grow_of_fail (by omega), if_neg h]

/-- C5: `extend` never fails and performs exactly: `old_data_size := size`,
`capacity := ⌈capacity * growth⌉` clamped down to the hard limit when the
product exceeds it, `old_data_appended := 0`, `resizes := resizes + 1`;
`size` (and every other field) is unchanged. -/
theorem extend_spec (a : Array) :
    a.extend = { a with
      old_data_size := a.size,
      capacity := match a.hard_limit with
        | some limit =>
            if (limit : ℚ) < (a.capacity : ℚ) * a.growth then limit
            else (⌈(a.capacity : ℚ) * a.growth⌉).toNat
        | none => (⌈(a.capacity : ℚ) * a.growth⌉).toNat,
      old_data_appended := 0,
      resizes := a.resizes + 1 } := by
  refine array_ext (extend_growth a) (extend_old_data_size a) (extend_size a) ?_
    (extend_hard_limit a) (extend_old_data_appended a) (extend_resizes a)
    (extend_copy_operations a)
  rw [extend_capacity]
  cases h : a.hard_limit with
  | none => rfl
  | some limit =>
      show (if limit < (⌈(a.capacity : ℚ) * a.growth⌉).toNat then limit
        else (⌈(a.capacity : ℚ) * a.growth⌉).toNat) = _
      exact if_congr (lt_toNat_ceil_iff limit _) rfl rfl

/-- C6: `append_old_data` succeeds exactly when `old_data_appended <
old_data_size`, incrementing `old_data_appended` and `copy_operations` and
returning the new `old_data_appended`; once `old_data_appended =
old_data_size`, any number of further calls fails and leaves the state
unchanged. -/
theorem append_old_data_spec (a : Array) :
    (a.append_old_data = if a.old_data_appended < a.old_data_size
      then (Except.ok (a.old_data_appended + 1),
        { a with copy_operations := a.copy_operations + 1,
                 old_data_appended := a.old_data_appended + 1 })
      else (Except.error (), a)) ∧
    (a.old_data_appended = a.old_data_size →
      a.append_old_data = (Except.error (), a) ∧
      ∀ k, (fun b : Array => b.append_old_data.2)^[k] a = a) := by
  constructor
  · by_cases h : a.old_data_appended < a.old_data_size
    · rw [append_of_ok h, if_pos h]
    · rw [append_of_fail h, if_neg h]
  · intro h
    have hfail : a.append_old_data = (Except.error (), a) := append_of_fail (by omega)
    refine ⟨hfail, ?_⟩
    intro k
    induction k with
    | zero => rfl
    | succ k ih =>
        rw [Function.iterate_succ_apply]
        have h2 : a.append_old_data.2 = a := by rw [hfail]
        simp only [h2]
        exact ih

/-- Witness for C6: at a state whose migration is exhausted
(`old_data_appended = old_data_size = 1`), three repeated calls are the
identity and the call fails. -/
theorem append_old_data_spec_witness :
    (fun b : Array => b.append_old_data.2)^[3] ⟨2, 1, 1, 1, none, 1, 1, 1⟩ =
      (⟨2, 1, 1, 1, none, 1, 1, 1⟩ : Array) ∧
    (Array.append_old_data ⟨2, 1, 1, 1, none, 1, 1, 1⟩).1 = Except.error () := by
  have h := (append_old_data_spec ⟨2, 1, 1, 1, none, 1, 1, 1⟩).2 rfl
  exact ⟨h.2 3, by rw [h.1]⟩

/-- C7: `memory_efficiency` is exactly
`(size - oldGenerationSize + migrated) / capacity`; right after `extend`
the old generation is the whole size, the migration cursor is 0 and the
efficiency is 0; and from such a state one successful `grow` or one
successful `append_old_data` both raise it to `1 / capacity`. -/
theorem efficiency_spec (a : Array) :
    (memory_efficiency a =
      ((a.size : ℚ) - (a.old_data_size : ℚ) + (a.old_data_appended : ℚ)) /
        (a.capacity : ℚ)) ∧
    (a.extend.old_data_size = a.extend.size ∧ a.extend.old_data_appended = 0 ∧
      memory_efficiency a.extend = 0) ∧
    (a.old_data_size = a.size → a.old_data_appended = 0 →
      (a.size + 1 ≤ a.capacity →
        memory_efficiency a.grow.2 = 1 / (a.capacity : ℚ)) ∧
      (0 < a.old_data_size →
        memory_efficiency a.append_old_data.2 = 1 / (a.capacity : ℚ))) := by
  refine ⟨rfl, ⟨?_, extend_old_data_appended a, ?_⟩, ?_⟩
  · rw [extend_old_data_size, extend_size]
  · rw [memory_efficiency, extend_old_data_size, extend_size, extend_old_data_appended]
    simp
  · intro h1 h2
    constructor
    · intro hgrow
      rw [grow_of_ok hgrow]
      simp only [memory_efficiency, h1, h2]
      push_cast
      ring
    · intro hpos
      rw [append_of_ok (by omega)]
      simp only [memory_efficiency, h1, h2]
      push_cast
      ring

/-- Witness for C7 at the post-`extend` state `⟨2, 1, 1, 2, none, 0, 1, 0⟩`
(old generation 1 = size, migration cursor 0, capacity 2). -/
theorem efficiency_spec_witness :
    memory_efficiency (Array.grow ⟨2, 1, 1, 2, none, 0, 1, 0⟩).2 =
      1 / (((⟨2, 1, 1, 2, none, 0, 1, 0⟩ : Array).capacity : ℚ)) ∧
    memory_efficiency (Array.append_old_data ⟨2, 1, 1, 2, none, 0, 1, 0⟩).2 =
      1 / (((⟨2, 1, 1, 2, none, 0, 1, 0⟩ : Array).capacity : ℚ)) := by
  have h := (efficiency_spec ⟨2, 1, 1, 2, none, 0, 1, 0⟩).2.2 rfl rfl
  exact ⟨h.1 (Nat.le_refl 2), h.2 Nat.one_pos⟩

/-- C8 (counterexample): with growth factor 2 (which is `≥ 1`) and hard
limit 0, the tick policy drives the capacity from 1 (after tick 1) down to
0 (after tick 2): `extend` clamps to the hard limit even when that limit
is below the current capacity, so capacity is not non-decreasing under the
claim's assumption `growthFactor ≥ 1` alone. -/
theorem capacity_decreases_with_zero_limit :
    (1 : ℚ) ≤ 2 ∧ (run 2 (some 0) 1).arr.capacity = 1 ∧
    (run 2 (some 0) 2).arr.capacity = 0 := by
  refine ⟨one_le_two, ?_, ?_⟩
  · rw [eval_lim0_1]
  · rw [eval_lim0_2]

/-- C8 (amended): assuming `growthFactor ≥ 1` and additionally
`hardLimit ≥ 1` when set, the capacity is non-decreasing across the run,
and from any tick at which `limited_reached` holds the capacity never
changes again. -/
theorem capacity_monotone_and_frozen (g : ℚ) (hl : Option ℕ) (hg : 1 ≤ g)
    (hhl : ∀ limit, hl = some limit → 1 ≤ limit) (n m : ℕ) (hnm : n ≤ m) :
    (run g hl n).arr.capacity ≤ (run g hl m).arr.capacity ∧
    ((run g hl n).limited_reached = true →
      (run g hl m).arr.capacity = (run g hl n).arr.capacity) :=
  ⟨run_capacity_mono hg hhl hnm, fun hlim => (run_frozen hg hhl hnm hlim).2.1⟩

/-- Witness for C8 (amended) at growth 2, hard limit 1, ticks 2 and 3 (the
model is in `limited_reached` from tick 2 on). -/
theorem capacity_monotone_and_frozen_witness :
    (run 2 (some 1) 2).arr.capacity ≤ (run 2 (some 1) 3).arr.capacity ∧
    ((run 2 (some 1) 2).limited_reached = true →
      (run 2 (some 1) 3).arr.capacity = (run 2 (some 1) 2).arr.capacity) :=
  capacity_monotone_and_frozen 2 (some 1) one_le_two
    (fun limit h => (Option.some.inj h) ▸ le_refl 1) 2 3 (by omega)

/-- C9: (1) with no hard limit and growth factor `> 1`, the `grow` retry
performed right after an `extend` always succeeds (for any state with
`size ≤ capacity` and `capacity ≥ 1`, as all reachable states have);
(2) consequently a run with `hardLimit = none` never sets
`limited_reached`; (3) `limited_reached` is newly entered on a tick only
if the hard limit is set, that tick's first `grow` failed, migration was
complete, and the post-`extend` retry of `grow` also failed. -/
theorem limit_entry_characterization (g : ℚ) (hl : Option ℕ) (hg : 1 < g)
    (hhl : ∀ limit, hl = some limit → 1 ≤ limit) :
    (∀ a : Array, a.hard_limit = none → 1 < a.growth → a.size ≤ a.capacity →
      1 ≤ a.capacity → a.extend.grow.1 = Except.ok (a.size + 1)) ∧
    (hl = none → ∀ n, (run g hl n).limited_reached = false) ∧
    (∀ n, (run g hl (n + 1)).limited_reached = true →
      (run g hl n).limited_reached = false →
      hl ≠ none ∧ (run g hl n).arr.grow.1 = Except.error () ∧
      (run g hl n).arr.old_data_appended = (run g hl n).arr.old_data_size ∧
      (run g hl n).arr.extend.grow.1 = Except.error ()) := by
  have part1 : ∀ a : Array, a.hard_limit = none → 1 < a.growth → a.size ≤ a.capacity →
      1 ≤ a.capacity → a.extend.grow.1 = Except.ok (a.size + 1) := by
    intro a hnone hga hsc hc1
    have hcap : a.capacity < a.extend.capacity := by
      rw [extend_capacity, hnone]
      exact lt_toNat_ceil_mul hc1 hga
    have h3 : a.extend.size + 1 ≤ a.extend.capacity := by
      rw [extend_size]
      omega
    rw [grow_of_ok h3, extend_size]
  have part3 : ∀ n, (run g hl (n + 1)).limited_reached = true →
      (run g hl n).limited_reached = false →
      hl ≠ none ∧ (run g hl n).arr.grow.1 = Except.error () ∧
      (run g hl n).arr.old_data_appended = (run g hl n).arr.old_data_size ∧
      (run g hl n).arr.extend.grow.1 = Except.error () := by
    intro n h1 h0
    rw [run_succ] at h1
    by_cases hg1 : (run g hl n).arr.size + 1 ≤ (run g hl n).arr.capacity
    · rw [tick_eq, growPhase_ok hg1] at h1
      simp [h0] at h1
    · by_cases hmig : (run g hl n).arr.old_data_appended = (run g hl n).arr.old_data_size
      · by_cases hretry : (run g hl n).arr.extend.size + 1 ≤ (run g hl n).arr.extend.capacity
        · rw [tick_eq, growPhase_retry_ok (by omega) hmig hretry] at h1
          simp [h0] at h1
        · refine ⟨?_, ?_, hmig, ?_⟩
          · intro hnone
            have hI := (loopInv_run (le_of_lt hg) hhl n).1
            have harrhl : (run g hl n).arr.hard_limit = none := by
              rw [run_arr_hard_limit]
              exact hnone
            have harrg : 1 < (run g hl n).arr.growth := by
              rw [run_arr_growth]
              exact hg
            have hok := part1 _ harrhl harrg hI.1 hI.2.2.2.1
            rw [grow_of_fail (by omega)] at hok
            simp at hok
          · rw [grow_of_fail (by omega)]
          · rw [grow_of_fail (by omega)]
      · rw [tick_eq, growPhase_defer (by omega) hmig] at h1
        simp [h0] at h1
  have part2 : hl = none → ∀ n, (run g hl n).limited_reached = false := by
    intro hnone n
    induction n with
    | zero => rfl
    | succ n ih =>
        by_contra hcon
        have htrue : (run g hl (n + 1)).limited_reached = true := by
          cases hb : (run g hl (n + 1)).limited_reached
          · exact absurd hb hcon
          · rfl
        exact absurd hnone (part3 n htrue ih).1
  exact ⟨part1, part2, part3⟩

/-- Witness for C9 at growth 2, no hard limit: after three ticks the run
has still not entered `limited_reached`. -/
theorem limit_entry_characterization_witness :
    (run 2 none 3).limited_reached = false :=
  (limit_entry_characterization 2 none one_lt_two
    (fun limit h => Option.noConfusion h)).2.1 rfl 3

/-- C10 (counterexample): with growth factor 2 (which is `≥ 1`) and hard
limit 0 the tick policy reaches a state with `capacity = 0` after two
ticks, so `capacity ≥ 1` does not hold for every reachable state under the
claim's assumption `growthFactor ≥ 1` alone, and the efficiency division
is not well defined there. -/
theorem capacity_zero_reachable :
    (1 : ℚ) ≤ 2 ∧ (run 2 (some 0) 2).arr.capacity = 0 := by
  refine ⟨one_le_two, ?_⟩
  rw [eval_lim0_2]

/-- C10 (amended): assuming `growthFactor ≥ 1` and additionally
`hardLimit ≥ 1` when set, every state of the run has `capacity ≥ 1`, the
efficiency numerator `size - oldGenerationSize + migrated` is never
negative, and the efficiency lies in `[0, 1]`. -/
theorem efficiency_in_unit_interval (g : ℚ) (hl : Option ℕ) (hg : 1 ≤ g)
    (hhl : ∀ limit, hl = some limit → 1 ≤ limit) (n : ℕ) :
    1 ≤ (run g hl n).arr.capacity ∧
    0 ≤ ((run g hl n).arr.size : ℚ) - ((run g hl n).arr.old_data_size : ℚ) +
      ((run g hl n).arr.old_data_appended : ℚ) ∧
    0 ≤ memory_efficiency (run g hl n).arr ∧
    memory_efficiency (run g hl n).arr ≤ 1 := by
  obtain ⟨h1, h2, h3, h4, h5, h6⟩ := (loopInv_run hg hhl n).1
  have c1 : (((run g hl n).arr.old_data_size : ℚ)) ≤ ((run g hl n).arr.size : ℚ) := by
    exact_mod_cast h3
  have c2 : (0 : ℚ) ≤ ((run g hl n).arr.old_data_appended : ℚ) := by positivity
  have c3 : (((run g hl n).arr.old_data_appended : ℚ)) ≤
      ((run g hl n).arr.old_data_size : ℚ) := by exact_mod_cast h2
  have c4 : (((run g hl n).arr.size : ℚ)) ≤ ((run g hl n).arr.capacity : ℚ) := by
    exact_mod_cast h1
  have c5 : (0 : ℚ) < ((run g hl n).arr.capacity : ℚ) := by exact_mod_cast h4
  refine ⟨h4, by linarith, ?_, ?_⟩
  · exact div_nonneg (by linarith) (le_of_lt c5)
  · rw [memory_efficiency, div_le_one c5]
    linarith

/-- Witness for C10 (amended) at growth 2, no hard limit, after one
tick. -/
theorem efficiency_in_unit_interval_witness :
    1 ≤ (run 2 none 1).arr.capacity ∧
    0 ≤ ((run 2 none 1).arr.size : ℚ) - ((run 2 none 1).arr.old_data_size : ℚ) +
      ((run 2 none 1).arr.old_data_appended : ℚ) ∧
    0 ≤ memory_efficiency (run 2 none 1).arr ∧
    memory_efficiency (run 2 none 1).arr ≤ 1 :=
  efficiency_in_unit_interval 2 none one_le_two (fun limit h => Option.noConfusion h) 1

end Dynarray
